import Mathlib

/-!
Verification of the KallistiOS SPU RAM allocator
(`kernel/arch/dreamcast/sound/snd_mem.c`) against its natural-language
specification.  The allocator keeps a list of extents ("blocks") of a
fixed 2 MiB sound-RAM region, allocates by best fit with 32-byte
alignment, and coalesces lazily on free.  All machine arithmetic in the
C source is on 32-bit unsigned integers (`uint32` / SH-4 `size_t`), so
every operation that can overflow is reduced modulo 2^32 here.
-/

/-- Modulus of 32-bit unsigned arithmetic (`uint32` / 32-bit `size_t`). -/
def UINT32_MOD : Nat := 4294967296

/-- Total capacity of the managed region: `2 * 1024 * 1024` bytes in
`snd_mem_init`. -/
def SPU_CAP : Nat := 2 * 1024 * 1024

/-- A single block of SPU RAM (`snd_block_t`): address offset, byte size,
and the in-use flag. -/
structure Block where
  addr : Nat
  size : Nat
  inuse : Bool
deriving Repr, DecidableEq

/-- The C expression `(x + 0x1f) & ~0x1f` on a 32-bit unsigned value:
round `x` up to a multiple of 32, with wraparound modulo 2^32.
`~0x1f` as a `uint32` is `0xFFFFFFE0 = 4294967264`. -/
def align32 (x : Nat) : Nat := ((x + 0x1f) % UINT32_MOD) &&& 0xFFFFFFE0

/-- 32-bit unsigned subtraction `a - b` (wraparound modulo 2^32). -/
def usub32 (a b : Nat) : Nat := (a + (UINT32_MOD - b % UINT32_MOD)) % UINT32_MOD

/-- `snd_mem_init(reserve)`: round the reserve up to 32 bytes and reset the
pool to a single free block covering `[reserve, 2 MiB)`; the size is
computed by 32-bit subtraction `2*1024*1024 - reserve`.  The spinlock and
the host-`malloc` failure paths (which leave the pool uninitialized) are
environment failures and are not modelled. -/
def snd_mem_init (reserve : Nat) : List Block :=
  let r := align32 reserve
  [⟨r, usub32 SPU_CAP r, false⟩]

/-- The scan of `snd_mem_malloc`'s `TAILQ_FOREACH` loop, transliterated:
`i` is the index of the current node, `best` the index of the best block
found so far, `bestSize` the running `best_size` (initially
`4*1024*1024`); a block is taken when
`e->size >= size && e->size < best_size && !e->inuse`. -/
def findBestAux (sz : Nat) : List Block → Nat → Option Nat → Nat → Option Nat
  | [], _, best, _ => best
  | e :: rest, i, best, bestSize =>
    if sz ≤ e.size ∧ e.size < bestSize ∧ e.inuse = false then
      findBestAux sz rest (i + 1) (some i) e.size
    else
      findBestAux sz rest (i + 1) best bestSize

/-- The complete best-fit search of `snd_mem_malloc`: scan the whole pool
starting from `best = NULL`, `best_size = 4*1024*1024`. -/
def findBest (sz : Nat) (pool : List Block) : Option Nat :=
  findBestAux sz pool 0 none (4 * 1024 * 1024)

/-- Structural reformulation of the best-fit scan: with current
`best_size` bound `bs`, return the index (within the remaining list) of
the block the loop would designate as `best`. -/
def findBestF (sz : Nat) : Nat → List Block → Option Nat
  | _, [] => none
  | bs, e :: rest =>
    if sz ≤ e.size ∧ e.size < bs ∧ e.inuse = false then
      match findBestF sz e.size rest with
      | none => some 0
      | some j => some (j + 1)
    else
      (findBestF sz bs rest).map (fun j => j + 1)

/-- Block at index `i` of the pool (the node the C code's `best` pointer
designates). -/
def blockAt (pool : List Block) (i : Nat) : Block :=
  pool.getD i ⟨0, 0, false⟩

/-- The mutation step of `snd_mem_malloc` at the chosen node: perfect fit
marks the block in use; otherwise the block is shrunk to `sz`, marked in
use, and the remainder `{addr + sz, size - sz, free}` is inserted right
after it (`TAILQ_INSERT_AFTER`).  Address arithmetic is 32-bit. -/
def mallocAt (sz : Nat) : Nat → List Block → List Block
  | _, [] => []
  | 0, e :: rest =>
    if e.size = sz then
      { e with inuse := true } :: rest
    else
      { e with size := sz, inuse := true } ::
        ⟨(e.addr + sz) % UINT32_MOD, e.size - sz, false⟩ :: rest
  | i + 1, e :: rest => e :: mallocAt sz i rest

/-- `snd_mem_malloc(size)`: returns the offset (0 on failure) and the new
pool.  `size == 0` returns 0 at once; otherwise the size is rounded up to
32 bytes, the best-fit block is searched, and on success its address is
returned.  The spinlock and host-`malloc` failure paths are environment
failures and are not modelled. -/
def snd_mem_malloc (size : Nat) (pool : List Block) : Nat × List Block :=
  if size = 0 then (0, pool)
  else
    let sz := align32 size
    match findBest sz pool with
    | none => (0, pool)
    | some i => ((blockAt pool i).addr, mallocAt sz i pool)

/-- The forward-coalescing step of `snd_mem_free`: if the block after the
current one exists and is free, absorb it (`e->size += o->size`, 32-bit
addition, remove `o`). -/
def fwdCoalesce (e : Block) : List Block → List Block
  | [] => [e]
  | o :: rest =>
    if o.inuse = false then
      { e with size := (e.size + o.size) % UINT32_MOD } :: rest
    else
      e :: o :: rest

/-- The body of `snd_mem_free` after the `addr == 0` gate: walk the pool
for the first block whose address equals `addr`.  Not found: report an
invalid free (the `dbglog` of a non-existent block) and leave the pool
unchanged.  Found: mark it free, coalesce with the previous block when
that is free (`o->size += e->size`, remove `e`, continue from `o`), then
coalesce forward.  The returned `Bool` is the invalid-free report. -/
def sndFreeGo (addr : Nat) : List Block → List Block × Bool
  | [] => ([], true)
  | e :: rest =>
    if e.addr = addr then
      (fwdCoalesce { e with inuse := false } rest, false)
    else
      match rest with
      | [] => ([e], true)
      | f :: rest2 =>
        if f.addr = addr then
          if e.inuse = false then
            (fwdCoalesce { e with size := (e.size + f.size) % UINT32_MOD } rest2, false)
          else
            (e :: fwdCoalesce { f with inuse := false } rest2, false)
        else
          let r := sndFreeGo addr rest
          (e :: r.1, r.2)

/-- `snd_mem_free(addr)`: `addr == 0` returns immediately, otherwise the
lookup/coalesce walk runs.  The second component reports the
invalid-free diagnostic. -/
def snd_mem_free (addr : Nat) (pool : List Block) : List Block × Bool :=
  if addr = 0 then (pool, false) else sndFreeGo addr pool

/-- The loop of `snd_mem_available`: the running maximum of `e->size`
over every block of the pool — the C loop tests `e->size > largest` and
nothing else (in particular not `e->inuse`). -/
def snd_mem_available_pool (pool : List Block) : Nat :=
  pool.foldl (fun largest e => if largest < e.size then e.size else largest) 0

/-- `snd_mem_available()`: 0 when the pool is uninitialized (`!initted`),
otherwise the maximum block size. -/
def snd_mem_available : Option (List Block) → Nat
  | none => 0
  | some pool => snd_mem_available_pool pool

/-- Modelled from the spec (§4.4): the size of the single largest *free*
extent of the Ledger, for comparison with what the code computes. -/
def largestFreeExtent (pool : List Block) : Nat :=
  pool.foldl (fun largest e => if e.inuse = false ∧ largest < e.size then e.size else largest) 0

/-- Link between two consecutive extents, as the spec's Coverage clause
demands it: contiguous (`addr + size = next.addr`) and in ascending
address order. -/
def ExtLink (a b : Block) : Prop := a.addr + a.size = b.addr ∧ a.addr < b.addr

instance : DecidableRel ExtLink := fun a b =>
  inferInstanceAs (Decidable (a.addr + a.size = b.addr ∧ a.addr < b.addr))

/-- Coverage: consecutive extents are contiguous, non-overlapping and
address-ordered. -/
def ChainOK (l : List Block) : Prop := List.Chain' ExtLink l

/-- Executable check of `ChainOK`. -/
def chainOKb : List Block → Bool
  | a :: b :: rest => ((a.addr + a.size == b.addr) && decide (a.addr < b.addr)) && chainOKb (b :: rest)
  | _ => true

def chainOKb_iff : ∀ l, chainOKb l = true ↔ ChainOK l
  | [] => by simp [chainOKb, ChainOK]
  | [a] => by simp [chainOKb, ChainOK]
  | a :: b :: rest => by
    rw [ChainOK, List.chain'_cons]
    simp only [chainOKb, Bool.and_eq_true, beq_iff_eq, decide_eq_true_eq]
    rw [chainOKb_iff (b :: rest)]
    exact ⟨fun h => ⟨⟨h.1.1, h.1.2⟩, h.2⟩, fun h => ⟨⟨h.1.1, h.1.2⟩, h.2⟩⟩

instance (l : List Block) : Decidable (ChainOK l) :=
  decidable_of_iff _ (chainOKb_iff l)

/-- No two consecutive extents are both free. -/
def NAF (l : List Block) : Prop :=
  List.Chain' (fun a b => a.inuse = true ∨ b.inuse = true) l

/-- Executable check of `NAF`. -/
def nafb : List Block → Bool
  | a :: b :: rest => (a.inuse || b.inuse) && nafb (b :: rest)
  | _ => true

def nafb_iff : ∀ l, nafb l = true ↔ NAF l
  | [] => by simp [nafb, NAF]
  | [a] => by simp [nafb, NAF]
  | a :: b :: rest => by
    rw [NAF, List.chain'_cons]
    simp only [nafb, Bool.and_eq_true, Bool.or_eq_true]
    rw [nafb_iff (b :: rest)]
    exact Iff.rfl

instance (l : List Block) : Decidable (NAF l) :=
  decidable_of_iff _ (nafb_iff l)

/-- Sum of the sizes of all extents. -/
def sumSizes (l : List Block) : Nat := (l.map Block.size).sum

/-- Every extent's address and size is a multiple of 32. -/
def AlignedOK (l : List Block) : Prop := ∀ b ∈ l, b.addr % 32 = 0 ∧ b.size % 32 = 0

instance (l : List Block) : Decidable (AlignedOK l) :=
  inferInstanceAs (Decidable (∀ b ∈ l, b.addr % 32 = 0 ∧ b.size % 32 = 0))

/-- Address of the first extent: the (rounded) reserved base.  It is
never changed by any operation. -/
def headAddr : List Block → Nat
  | [] => 0
  | b :: _ => b.addr

/-- The Ledger invariant of the spec (§3): nonempty, Coverage,
Conservation (sizes sum to the capacity minus the reserved base, stated
wrap-free as `sum + base = capacity`), and Alignment. -/
def LedgerInv (l : List Block) : Prop :=
  l ≠ [] ∧ headAddr l ≤ SPU_CAP ∧ sumSizes l + headAddr l = SPU_CAP ∧
    ChainOK l ∧ AlignedOK l

instance (l : List Block) : Decidable (LedgerInv l) :=
  inferInstanceAs (Decidable (l ≠ [] ∧ headAddr l ≤ SPU_CAP ∧
    sumSizes l + headAddr l = SPU_CAP ∧ ChainOK l ∧ AlignedOK l))

/-! ### Arithmetic facts about the 32-bit helpers -/

/-- Clearing the low five bits of a 32-bit value rounds it down to a
multiple of 32. -/
theorem land_mask32 (y : Nat) (hy : y < 4294967296) : y &&& 4294967264 = 32 * (y / 32) := by
  have h1 : 32 * (y / 32) = (y >>> 5) <<< 5 := by
    rw [Nat.shiftLeft_eq, Nat.shiftRight_eq_div_pow]
    show 32 * (y / 32) = y / 32 * 32
    exact Nat.mul_comm _ _
  rw [h1]
  apply Nat.eq_of_testBit_eq
  intro i
  simp only [Nat.testBit_and, Nat.testBit_shiftLeft, Nat.testBit_shiftRight]
  rcases Nat.lt_or_ge i 32 with h32 | h32
  · rcases Nat.lt_or_ge i 5 with h5 | h5
    · have hmask : Nat.testBit 4294967264 i = false := by
        interval_cases i <;> decide
      have hge : decide (i ≥ 5) = false := by
        simp only [ge_iff_le, decide_eq_false_iff_not, not_le]
        exact h5
      rw [hmask, hge, Bool.and_false, Bool.false_and]
    · have hge : decide (i ≥ 5) = true := by simp [ge_iff_le, h5]
      have hidx : 5 + (i - 5) = i := by omega
      rw [hge, hidx, Bool.true_and]
      have hmask : Nat.testBit 4294967264 i = true := by
        interval_cases i <;> decide
      rw [hmask, Bool.and_true]
  · have hy' : Nat.testBit y i = false :=
      Nat.testBit_lt_two_pow
        (Nat.lt_of_lt_of_le hy (Nat.pow_le_pow_right (by decide : 0 < 2) h32))
    have hidx : 5 + (i - 5) = i := by omega
    rw [hidx, hy']
    simp


theorem align32_eq (x : Nat) : align32 x = 32 * (((x + 31) % UINT32_MOD) / 32) := by
  have h : (x + 31) % UINT32_MOD < 4294967296 := Nat.mod_lt _ (by decide)
  unfold align32
  rw [land_mask32 _ h]

theorem align32_small (x : Nat) (hx : x + 31 < UINT32_MOD) : align32 x = 32 * ((x + 31) / 32) := by
  rw [align32_eq, Nat.mod_eq_of_lt hx]

theorem align32_mul32 (x : Nat) : align32 x % 32 = 0 := by
  rw [align32_eq]; omega

theorem align32_ge (x : Nat) (hx : x + 31 < UINT32_MOD) : x ≤ align32 x := by
  rw [align32_small x hx]
  have := Nat.div_add_mod (x + 31) 32
  have h2 : (x + 31) % 32 < 32 := Nat.mod_lt _ (by decide)
  omega

theorem align32_le (x : Nat) (hx : x + 31 < UINT32_MOD) : align32 x ≤ x + 31 := by
  rw [align32_small x hx]
  have := Nat.div_add_mod (x + 31) 32
  omega

theorem align32_pos (x : Nat) (hx0 : x ≠ 0) (hx : x + 31 < UINT32_MOD) : 0 < align32 x := by
  have := align32_ge x hx
  omega

theorem align32_wrap (x : Nat) (h1 : UINT32_MOD - 31 ≤ x) (h2 : x < UINT32_MOD) : align32 x = 0 := by
  rw [align32_eq]
  have h3 : (x + 31) % UINT32_MOD = x + 31 - UINT32_MOD := by
    unfold UINT32_MOD at *
    omega
  rw [h3]
  unfold UINT32_MOD at *
  omega

theorem align32_lt_mod (x : Nat) : align32 x < UINT32_MOD := by
  rw [align32_eq]
  have h : (x + 31) % UINT32_MOD < UINT32_MOD := Nat.mod_lt _ (by decide)
  unfold UINT32_MOD at *
  omega

theorem usub32_of_le (a b : Nat) (hb : b ≤ a) (ha : a < UINT32_MOD) : usub32 a b = a - b := by
  unfold usub32 UINT32_MOD at *
  have hb' : b % 4294967296 = b := Nat.mod_eq_of_lt (by omega)
  rw [hb']
  have h : a + (4294967296 - b) = 4294967296 + (a - b) := by omega
  rw [h, Nat.add_mod_left]
  exact Nat.mod_eq_of_lt (by omega)

/-! ### Characterization of the best-fit scan -/

theorem findBestAux_eq (sz : Nat) : ∀ (l : List Block) (i0 : Nat) (acc : Option Nat) (bs : Nat),
    findBestAux sz l i0 acc bs =
      match findBestF sz bs l with
      | some j => some (i0 + j)
      | none => acc
  | [], _, _, _ => rfl
  | e :: rest, i0, acc, bs => by
    by_cases h : sz ≤ e.size ∧ e.size < bs ∧ e.inuse = false
    · rw [findBestAux, if_pos h, findBestF, if_pos h, findBestAux_eq sz rest (i0+1) (some i0) e.size]
      cases hF : findBestF sz e.size rest with
      | none => simp
      | some j => simp; omega
    · rw [findBestAux, if_neg h, findBestF, if_neg h, findBestAux_eq sz rest (i0+1) acc bs]
      cases hF : findBestF sz bs rest with
      | none => simp
      | some j => simp; omega

theorem findBest_eq (sz : Nat) (pool : List Block) :
    findBest sz pool = findBestF sz (4 * 1024 * 1024) pool := by
  rw [findBest, findBestAux_eq]
  cases findBestF sz (4 * 1024 * 1024) pool <;> simp

theorem findBestF_none (sz : Nat) : ∀ (bs : Nat) (l : List Block),
    findBestF sz bs l = none ↔ ∀ b ∈ l, ¬(sz ≤ b.size ∧ b.size < bs ∧ b.inuse = false)
  | bs, [] => by simp [findBestF]
  | bs, e :: rest => by
    by_cases h : sz ≤ e.size ∧ e.size < bs ∧ e.inuse = false
    · rw [findBestF, if_pos h]
      constructor
      · intro hc
        exfalso
        cases hF : findBestF sz e.size rest <;> simp [hF] at hc
      · intro hall
        exact absurd h (hall e (List.mem_cons_self e rest))
    · rw [findBestF, if_neg h]
      rw [Option.map_eq_none']
      rw [findBestF_none sz bs rest]
      constructor
      · intro hall
        intro b hb
        rcases List.mem_cons.mp hb with rfl | hb2
        · exact h
        · exact hall b hb2
      · intro hall b hb
        exact hall b (List.mem_cons_of_mem e hb)

theorem findBestF_some (sz : Nat) : ∀ (bs : Nat) (l : List Block) (j : Nat),
    findBestF sz bs l = some j →
    j < l.length ∧
    (sz ≤ (blockAt l j).size ∧ (blockAt l j).size < bs ∧ (blockAt l j).inuse = false) ∧
    ∀ k, k < l.length →
      (sz ≤ (blockAt l k).size ∧ (blockAt l k).size < bs ∧ (blockAt l k).inuse = false) →
      ((blockAt l j).size < (blockAt l k).size ∨
        ((blockAt l j).size = (blockAt l k).size ∧ j ≤ k))
  | bs, [], j => by simp [findBestF]
  | bs, e :: rest, j => by
    by_cases h : sz ≤ e.size ∧ e.size < bs ∧ e.inuse = false
    · rw [findBestF, if_pos h]
      cases hF : findBestF sz e.size rest with
      | none =>
        intro hj
        have hj0 : j = 0 := by simpa using hj.symm
        subst hj0
        refine ⟨Nat.succ_pos _, ?_, ?_⟩
        · simpa [blockAt] using h
        · intro k hk hcand
          cases k with
          | zero => right; exact ⟨rfl, Nat.le_refl 0⟩
          | succ k' =>
            have hk' : k' < rest.length := by simpa using hk
            have hcand' := hcand
            simp only [blockAt, List.getD_cons_succ] at hcand'
            have hnone := (findBestF_none sz e.size rest).mp hF
            have hb := hnone (blockAt rest k')
              (by rw [blockAt, List.getD_eq_getElem _ _ hk']; exact List.getElem_mem _)
            simp only [blockAt] at hb ⊢
            rcases Nat.lt_or_ge ((rest.getD k' ⟨0,0,false⟩).size) e.size with hlt | hge
            · exact absurd ⟨hcand'.1, hlt, hcand'.2.2⟩ hb
            · simp only [List.getD_cons_zero, List.getD_cons_succ]
              rcases Nat.eq_or_lt_of_le hge with heq | hlt2
              · right; exact ⟨heq, Nat.zero_le _⟩
              · left; exact hlt2
      | some j' =>
        intro hj
        have hj1 : j = j' + 1 := by simpa using hj.symm
        subst hj1
        obtain ⟨hlen, hcandj, hmin⟩ := findBestF_some sz e.size rest j' hF
        refine ⟨by simpa using hlen, ?_, ?_⟩
        · simp only [blockAt, List.getD_cons_succ]
          exact ⟨hcandj.1, Nat.lt_trans hcandj.2.1 h.2.1, hcandj.2.2⟩
        · intro k hk hcand
          cases k with
          | zero =>
            left
            simp only [blockAt, List.getD_cons_succ, List.getD_cons_zero] at *
            exact hcandj.2.1
          | succ k' =>
            have hk' : k' < rest.length := by simpa using hk
            simp only [blockAt, List.getD_cons_succ] at hcand ⊢
            rcases Nat.lt_or_ge ((rest.getD k' ⟨0,0,false⟩).size) e.size with hlt | hge
            · have := hmin k' hk' ⟨hcand.1, hlt, hcand.2.2⟩
              simp only [blockAt] at this
              rcases this with h1 | h2
              · left; exact h1
              · right; exact ⟨h2.1, Nat.succ_le_succ h2.2⟩
            · left
              exact Nat.lt_of_lt_of_le hcandj.2.1 hge
    · rw [findBestF, if_neg h]
      intro hj
      rw [Option.map_eq_some'] at hj
      obtain ⟨j', hF, rfl⟩ := hj
      obtain ⟨hlen, hcandj, hmin⟩ := findBestF_some sz bs rest j' hF
      refine ⟨by simpa using hlen, ?_, ?_⟩
      · simpa only [blockAt, List.getD_cons_succ] using hcandj
      · intro k hk hcand
        cases k with
        | zero =>
          exfalso
          simp only [blockAt, List.getD_cons_zero] at hcand
          exact h hcand
        | succ k' =>
          have hk' : k' < rest.length := by simpa using hk
          simp only [blockAt, List.getD_cons_succ] at hcand ⊢
          have := hmin k' hk' hcand
          simp only [blockAt] at this
          rcases this with h1 | h2
          · left; exact h1
          · right; exact ⟨h2.1, Nat.succ_le_succ h2.2⟩

/-! ### List surgery lemmas -/

theorem list_split_at : ∀ (l : List Block) (i : Nat), i < l.length →
    l = l.take i ++ blockAt l i :: l.drop (i + 1)
  | e :: rest, 0, _ => by simp [blockAt]
  | e :: rest, i + 1, h => by
    have h' : i < rest.length := by simpa using h
    have := list_split_at rest i h'
    simp only [List.take_succ_cons, List.drop_succ_cons, blockAt, List.getD_cons_succ]
    exact congrArg (e :: ·) this

theorem mallocAt_append (sz : Nat) : ∀ (A : List Block) (e : Block) (B : List Block),
    mallocAt sz A.length (A ++ e :: B) =
      A ++ (if e.size = sz then { e with inuse := true } :: B
            else { e with size := sz, inuse := true } ::
              ⟨(e.addr + sz) % UINT32_MOD, e.size - sz, false⟩ :: B)
  | [], e, B => by simp [mallocAt]
  | a :: A, e, B => by
    simp only [List.length_cons, List.cons_append, mallocAt]
    exact congrArg (a :: ·) (mallocAt_append sz A e B)

/-! ### One-step unfolding equations for the free walk -/

theorem fwdCoalesce_cons (e o : Block) (rest : List Block) :
    fwdCoalesce e (o :: rest) =
      if o.inuse = false then
        { e with size := (e.size + o.size) % UINT32_MOD } :: rest
      else e :: o :: rest := rfl

theorem sndFreeGo_singleton (addr : Nat) (e : Block) :
    sndFreeGo addr [e] =
      if e.addr = addr then (fwdCoalesce { e with inuse := false } [], false)
      else ([e], true) := rfl

theorem sndFreeGo_cons_cons (addr : Nat) (e f : Block) (rest2 : List Block) :
    sndFreeGo addr (e :: f :: rest2) =
      if e.addr = addr then
        (fwdCoalesce { e with inuse := false } (f :: rest2), false)
      else if f.addr = addr then
        (if e.inuse = false then
          (fwdCoalesce { e with size := (e.size + f.size) % UINT32_MOD } rest2, false)
        else (e :: fwdCoalesce { f with inuse := false } rest2, false))
      else (e :: (sndFreeGo addr (f :: rest2)).1, (sndFreeGo addr (f :: rest2)).2) := rfl

theorem sndFreeGo_append (p : Nat) : ∀ (A : List Block) (x : Block) (xs : List Block),
    (∀ a ∈ A, a.addr ≠ p) → (∀ a, A.getLast? = some a → a.inuse = true) → x.addr = p →
    sndFreeGo p (A ++ x :: xs) = (A ++ fwdCoalesce { x with inuse := false } xs, false)
  | [], x, xs, _, _, hx => by
    cases xs with
    | nil => simp only [List.nil_append, sndFreeGo_singleton, if_pos hx]
    | cons y ys => simp only [List.nil_append, sndFreeGo_cons_cons, if_pos hx]
  | [a], x, xs, hA, hlast, hx => by
    have ha : a.addr ≠ p := hA a (List.mem_singleton_self a)
    have hau : a.inuse = true := hlast a rfl
    show sndFreeGo p (a :: x :: xs) = _
    rw [sndFreeGo_cons_cons, if_neg ha, if_pos hx, hau]
    simp
  | a :: a' :: A, x, xs, hA, hlast, hx => by
    have ha : a.addr ≠ p := hA a (List.mem_cons_self a _)
    have ha' : a'.addr ≠ p := hA a' (List.mem_cons_of_mem a (List.mem_cons_self a' _))
    have ih := sndFreeGo_append p (a' :: A) x xs
      (fun b hb => hA b (List.mem_cons_of_mem a hb))
      (fun b hb => hlast b (by rwa [List.getLast?_cons_cons]))
      hx
    show sndFreeGo p (a :: a' :: (A ++ x :: xs)) = _
    rw [sndFreeGo_cons_cons, if_neg ha, if_neg ha']
    rw [List.cons_append] at ih
    rw [ih]
    rfl

/-! ### Facts about sums, addresses and the invariants -/

theorem sumSizes_nil : sumSizes [] = 0 := rfl

theorem sumSizes_cons (e : Block) (l : List Block) :
    sumSizes (e :: l) = e.size + sumSizes l := by
  simp [sumSizes]

theorem sumSizes_append (A B : List Block) :
    sumSizes (A ++ B) = sumSizes A + sumSizes B := by
  simp [sumSizes]

theorem size_le_sumSizes {b : Block} {l : List Block} (hb : b ∈ l) :
    b.size ≤ sumSizes l := by
  induction l with
  | nil => cases hb
  | cons e rest ih =>
    rw [sumSizes_cons]
    rcases List.mem_cons.mp hb with rfl | hb2
    · exact Nat.le_add_right _ _
    · exact Nat.le_trans (ih hb2) (Nat.le_add_left _ _)

theorem chainOK_addr_telescope : ∀ (A : List Block) (e : Block) (B : List Block),
    ChainOK (A ++ e :: B) → e.addr = headAddr (A ++ e :: B) + sumSizes A
  | [], e, B, _ => by simp [headAddr, sumSizes_nil]
  | a :: A, e, B, h => by
    have h' : ChainOK (A ++ e :: B) := (List.chain'_cons'.mp h).2
    have ih := chainOK_addr_telescope A e B h'
    have hlink : ∀ y ∈ (A ++ e :: B).head?, ExtLink a y := (List.chain'_cons'.mp h).1
    cases A with
    | nil =>
      obtain ⟨hl1, hl2⟩ := hlink e rfl
      simp only [headAddr, List.cons_append, List.nil_append, sumSizes_cons, sumSizes_nil] at *
      omega
    | cons a' A' =>
      obtain ⟨hl1, hl2⟩ := hlink a' rfl
      simp only [headAddr, List.cons_append, sumSizes_cons] at *
      omega

theorem chainOK_addr_size_le {A : List Block} {e : Block} {B : List Block}
    (hch : ChainOK (A ++ e :: B)) (hsum : sumSizes (A ++ e :: B) + headAddr (A ++ e :: B) = SPU_CAP) :
    e.addr + e.size ≤ SPU_CAP := by
  have htel := chainOK_addr_telescope A e B hch
  have hs : sumSizes (A ++ e :: B) = sumSizes A + (e.size + sumSizes B) := by
    rw [sumSizes_append, sumSizes_cons]
  omega

theorem chainOK_sorted {l : List Block} (h : ChainOK l) :
    List.Pairwise (fun a b => a.addr < b.addr) l := by
  have h2 : List.Chain' (fun a b : Block => a.addr < b.addr) l :=
    List.Chain'.imp (fun a b hl => hl.2) h
  haveI : IsTrans Block (fun a b : Block => a.addr < b.addr) :=
    ⟨fun _ _ _ => Nat.lt_trans⟩
  exact (List.chain'_iff_pairwise).mp h2

theorem chainOK_take_addr_lt {A : List Block} {e : Block} {B : List Block}
    (hch : ChainOK (A ++ e :: B)) : ∀ a ∈ A, a.addr < e.addr := by
  have hp := chainOK_sorted hch
  rw [List.pairwise_append] at hp
  intro a ha
  exact hp.2.2 a ha e (List.mem_cons_self e B)

theorem naf_decomp {A : List Block} {e : Block} {B : List Block}
    (hnaf : NAF (A ++ e :: B)) (he : e.inuse = false) :
    (∀ a, A.getLast? = some a → a.inuse = true) ∧ (∀ b, B.head? = some b → b.inuse = true) := by
  rw [NAF, List.chain'_append] at hnaf
  constructor
  · intro a ha
    have := hnaf.2.2 a ha e rfl
    rcases this with h1 | h2
    · exact h1
    · rw [he] at h2; cases h2
  · intro b hb
    have h2 := hnaf.2.1
    rw [List.chain'_cons'] at h2
    have := h2.1 b hb
    rcases this with h1 | h1
    · rw [he] at h1; cases h1
    · exact h1

/-! ### Preservation of the Ledger invariants by the free walk -/

theorem fwdCoalesce_pres (x : Block) (xs : List Block)
    (hsum : x.size + sumSizes xs < UINT32_MOD)
    (hlink : ∀ y, xs.head? = some y → x.addr + x.size = y.addr ∧ x.addr < y.addr)
    (hch : ChainOK xs)
    (hal : x.addr % 32 = 0 ∧ x.size % 32 = 0)
    (halxs : AlignedOK xs) :
    ChainOK (fwdCoalesce x xs) ∧ AlignedOK (fwdCoalesce x xs) ∧
      sumSizes (fwdCoalesce x xs) = x.size + sumSizes xs ∧
      ∃ s t, fwdCoalesce x xs = { x with size := s } :: t := by
  cases xs with
  | nil =>
    refine ⟨List.chain'_singleton x, ?_, by simp [sumSizes_cons, sumSizes_nil, fwdCoalesce], x.size, [], rfl⟩
    intro b hb
    rcases List.mem_singleton.mp hb with rfl
    exact hal
  | cons o rest =>
    rw [fwdCoalesce_cons]
    by_cases ho : o.inuse = false
    · rw [if_pos ho]
      have hos : o.size + sumSizes rest = sumSizes (o :: rest) := (sumSizes_cons o rest).symm
      have hmod : (x.size + o.size) % UINT32_MOD = x.size + o.size := by
        rw [sumSizes_cons] at hsum
        exact Nat.mod_eq_of_lt (by omega)
      obtain ⟨hxo1, hxo2⟩ := hlink o rfl
      have hch2 : ChainOK rest := (List.chain'_cons'.mp hch).2
      have holink : ∀ y ∈ rest.head?, ExtLink o y := (List.chain'_cons'.mp hch).1
      refine ⟨?_, ?_, ?_, ?_⟩
      · rw [ChainOK, List.chain'_cons']
        refine ⟨?_, hch2⟩
        intro y hy
        obtain ⟨ho1, ho2⟩ := holink y hy
        constructor
        · simp only [hmod]; omega
        · simp only []; omega
      · intro b hb
        rcases List.mem_cons.mp hb with rfl | hb2
        · refine ⟨hal.1, ?_⟩
          have hoa : o.size % 32 = 0 := (halxs o (List.mem_cons_self o rest)).2
          simp only [hmod]
          omega
        · exact halxs b (List.mem_cons_of_mem o hb2)
      · simp only [sumSizes_cons, hmod]
        omega
      · exact ⟨(x.size + o.size) % UINT32_MOD, rest, rfl⟩
    · rw [if_neg ho]
      have hxo := hlink o rfl
      refine ⟨?_, ?_, ?_, x.size, o :: rest, by simp⟩
      · rw [ChainOK, List.chain'_cons]
        exact ⟨⟨hxo.1, hxo.2⟩, hch⟩
      · intro b hb
        rcases List.mem_cons.mp hb with rfl | hb2
        · exact hal
        · exact halxs b hb2
      · rw [sumSizes_cons]

theorem sndFreeGo_head_ne (addr : Nat) (e : Block) (rest : List Block) (he : e.addr ≠ addr) :
    ∃ s t, (sndFreeGo addr (e :: rest)).1 = { e with size := s } :: t := by
  cases rest with
  | nil =>
    rw [sndFreeGo_singleton, if_neg he]
    exact ⟨e.size, [], by simp⟩
  | cons f rest2 =>
    rw [sndFreeGo_cons_cons, if_neg he]
    by_cases hf : f.addr = addr
    · rw [if_pos hf]
      by_cases hu : e.inuse = false
      · rw [if_pos hu]
        cases rest2 with
        | nil => exact ⟨(e.size + f.size) % UINT32_MOD, [], rfl⟩
        | cons g rest3 =>
          rw [fwdCoalesce_cons]
          by_cases hg : g.inuse = false
          · rw [if_pos hg]
            exact ⟨((e.size + f.size) % UINT32_MOD + g.size) % UINT32_MOD, rest3, rfl⟩
          · rw [if_neg hg]
            exact ⟨(e.size + f.size) % UINT32_MOD, g :: rest3, rfl⟩
      · rw [if_neg hu]
        exact ⟨e.size, fwdCoalesce { f with inuse := false } rest2, by simp⟩
    · rw [if_neg hf]
      exact ⟨e.size, (sndFreeGo addr (f :: rest2)).1, by simp⟩

theorem sndFreeGo_pres (addr : Nat) : ∀ (l : List Block),
    sumSizes l < UINT32_MOD → ChainOK l → AlignedOK l →
    ChainOK (sndFreeGo addr l).1 ∧ AlignedOK (sndFreeGo addr l).1 ∧
      sumSizes (sndFreeGo addr l).1 = sumSizes l
  | [], _, _, _ => by
    refine ⟨List.chain'_nil, ?_, rfl⟩
    intro b hb
    cases hb
  | [e], hsum, hch, hal => by
    rw [sndFreeGo_singleton]
    by_cases he : e.addr = addr
    · rw [if_pos he]
      refine ⟨List.chain'_singleton _, ?_, by simp [fwdCoalesce, sumSizes_cons]⟩
      intro b hb
      rcases List.mem_singleton.mp hb with rfl
      exact hal e (List.mem_singleton_self e)
    · rw [if_neg he]
      exact ⟨hch, hal, rfl⟩
  | e :: f :: rest2, hsum, hch, hal => by
    have hef : ExtLink e f := (List.chain'_cons.mp hch).1
    have hch1 : ChainOK (f :: rest2) := (List.chain'_cons.mp hch).2
    have hflink : ∀ y ∈ rest2.head?, ExtLink f y := (List.chain'_cons'.mp hch1).1
    have hch2 : ChainOK rest2 := (List.chain'_cons'.mp hch1).2
    have hale : e.addr % 32 = 0 ∧ e.size % 32 = 0 := hal e (List.mem_cons_self e _)
    have half : f.addr % 32 = 0 ∧ f.size % 32 = 0 :=
      hal f (List.mem_cons_of_mem e (List.mem_cons_self f _))
    have hal1 : AlignedOK (f :: rest2) := fun b hb => hal b (List.mem_cons_of_mem e hb)
    have hal2 : AlignedOK rest2 := fun b hb => hal1 b (List.mem_cons_of_mem f hb)
    have hsum1 : sumSizes (f :: rest2) < UINT32_MOD := by
      rw [sumSizes_cons] at hsum; omega
    rw [sndFreeGo_cons_cons]
    by_cases he : e.addr = addr
    · rw [if_pos he]
      have := fwdCoalesce_pres { e with inuse := false } (f :: rest2)
        (by simpa [sumSizes_cons] using hsum)
        (by
          intro y hy
          simp only [List.head?_cons, Option.some.injEq] at hy
          subst hy
          exact ⟨hef.1, hef.2⟩)
        hch1 hale hal1
      exact ⟨this.1, this.2.1, by rw [this.2.2.1]; simp [sumSizes_cons]⟩
    · rw [if_neg he]
      by_cases hf : f.addr = addr
      · rw [if_pos hf]
        by_cases hu : e.inuse = false
        · rw [if_pos hu]
          have hmod : (e.size + f.size) % UINT32_MOD = e.size + f.size := by
            rw [sumSizes_cons, sumSizes_cons] at hsum
            exact Nat.mod_eq_of_lt (by omega)
          have := fwdCoalesce_pres { e with size := (e.size + f.size) % UINT32_MOD } rest2
            (by simp only [hmod]; rw [sumSizes_cons, sumSizes_cons] at hsum; omega)
            (by
              intro y hy
              have hfy := hflink y hy
              simp only [hmod]
              exact ⟨by rw [← hfy.1, ← hef.1]; omega, by have := hef.2; have := hfy.2; omega⟩)
            hch2
            (by simp only [hmod]; exact ⟨hale.1, by omega⟩)
            hal2
          refine ⟨this.1, this.2.1, ?_⟩
          rw [this.2.2.1]
          simp only [hmod, sumSizes_cons]
          omega
        · rw [if_neg hu]
          have hinner := fwdCoalesce_pres { f with inuse := false } rest2
            (by rw [sumSizes_cons, sumSizes_cons] at hsum; simpa using hsum1)
            (by intro y hy; have := hflink y hy; exact ⟨this.1, this.2⟩)
            hch2 half hal2
          obtain ⟨s, t, hform⟩ := hinner.2.2.2
          refine ⟨?_, ?_, ?_⟩
          · rw [ChainOK, List.chain'_cons']
            refine ⟨?_, hinner.1⟩
            intro y hy
            rw [hform] at hy
            simp only [List.head?_cons, Option.mem_def, Option.some.injEq] at hy
            subst hy
            exact ⟨hef.1, hef.2⟩
          · intro b hb
            rcases List.mem_cons.mp hb with rfl | hb2
            · exact hale
            · exact hinner.2.1 b hb2
          · rw [sumSizes_cons, hinner.2.2.1]
            simp [sumSizes_cons]
      · rw [if_neg hf]
        have ih := sndFreeGo_pres addr (f :: rest2) hsum1 hch1 hal1
        obtain ⟨s, t, hform⟩ := sndFreeGo_head_ne addr f rest2 hf
        refine ⟨?_, ?_, ?_⟩
        · rw [ChainOK, List.chain'_cons']
          refine ⟨?_, ih.1⟩
          intro y hy
          rw [hform] at hy
          simp only [List.head?_cons, Option.mem_def, Option.some.injEq] at hy
          subst hy
          exact ⟨hef.1, hef.2⟩
        · intro b hb
          rcases List.mem_cons.mp hb with rfl | hb2
          · exact hale
          · exact ih.2.1 b hb2
        · rw [sumSizes_cons, ih.2.2]
          simp [sumSizes_cons]

/-! ### Preservation of the no-adjacent-free property by the free walk -/

theorem fwdCoalesce_naf (x : Block) (xs : List Block) (hnaf : NAF xs) :
    NAF (fwdCoalesce x xs) ∧ ∃ s t, fwdCoalesce x xs = { x with size := s } :: t := by
  cases xs with
  | nil =>
    exact ⟨List.chain'_singleton x, x.size, [], rfl⟩
  | cons o rest =>
    rw [fwdCoalesce_cons]
    by_cases ho : o.inuse = false
    · rw [if_pos ho]
      have hnaf2 : NAF rest := (List.chain'_cons'.mp hnaf).2
      have holink : ∀ y ∈ rest.head?, o.inuse = true ∨ y.inuse = true :=
        (List.chain'_cons'.mp hnaf).1
      refine ⟨?_, (x.size + o.size) % UINT32_MOD, rest, rfl⟩
      rw [NAF, List.chain'_cons']
      refine ⟨?_, hnaf2⟩
      intro y hy
      rcases holink y hy with h1 | h1
      · rw [ho] at h1; cases h1
      · right; exact h1
    · rw [if_neg ho]
      refine ⟨?_, x.size, o :: rest, by simp⟩
      rw [NAF, List.chain'_cons]
      have hou : o.inuse = true := by
        cases hval : o.inuse with
        | false => exact absurd hval ho
        | true => rfl
      exact ⟨Or.inr hou, hnaf⟩

theorem sndFreeGo_naf (addr : Nat) : ∀ (l : List Block), NAF l → NAF (sndFreeGo addr l).1
  | [], _ => List.chain'_nil
  | [e], hnaf => by
    rw [sndFreeGo_singleton]
    by_cases he : e.addr = addr
    · rw [if_pos he]
      exact List.chain'_singleton _
    · rw [if_neg he]
      exact hnaf
  | e :: f :: rest2, hnaf => by
    have hef : e.inuse = true ∨ f.inuse = true := (List.chain'_cons.mp hnaf).1
    have hnaf1 : NAF (f :: rest2) := (List.chain'_cons.mp hnaf).2
    have hnaf2 : NAF rest2 := (List.chain'_cons'.mp hnaf1).2
    rw [sndFreeGo_cons_cons]
    by_cases he : e.addr = addr
    · rw [if_pos he]
      exact (fwdCoalesce_naf { e with inuse := false } (f :: rest2) hnaf1).1
    · rw [if_neg he]
      by_cases hf : f.addr = addr
      · rw [if_pos hf]
        by_cases hu : e.inuse = false
        · rw [if_pos hu]
          exact (fwdCoalesce_naf { e with size := (e.size + f.size) % UINT32_MOD } rest2 hnaf2).1
        · rw [if_neg hu]
          have hinner := fwdCoalesce_naf { f with inuse := false } rest2 hnaf2
          obtain ⟨s, t, hform⟩ := hinner.2
          rw [NAF, List.chain'_cons']
          refine ⟨?_, hinner.1⟩
          intro y hy
          rw [hform] at hy
          simp only [List.head?_cons, Option.mem_def, Option.some.injEq] at hy
          subst hy
          left
          cases hval : e.inuse with
          | false => exact absurd hval hu
          | true => rfl
      · rw [if_neg hf]
        have ih := sndFreeGo_naf addr (f :: rest2) hnaf1
        obtain ⟨s, t, hform⟩ := sndFreeGo_head_ne addr f rest2 hf
        rw [NAF, List.chain'_cons']
        refine ⟨?_, ih⟩
        intro y hy
        rw [hform] at hy
        simp only [List.head?_cons, Option.mem_def, Option.some.injEq] at hy
        subst hy
        rcases hef with h1 | h1
        · left; exact h1
        · right; exact h1

/-! ### Preservation of the Ledger invariants by the allocator -/

theorem snd_mem_malloc_success {size : Nat} {pool : List Block} {i : Nat}
    (h0 : size ≠ 0) (hF : findBest (align32 size) pool = some i) :
    snd_mem_malloc size pool = ((blockAt pool i).addr, mallocAt (align32 size) i pool) := by
  rw [snd_mem_malloc, if_neg h0]
  simp only [hF]

theorem findBest_some_facts {sz : Nat} {pool : List Block} {i : Nat}
    (h : findBest sz pool = some i) :
    i < pool.length ∧ sz ≤ (blockAt pool i).size ∧ (blockAt pool i).inuse = false := by
  rw [findBest_eq] at h
  have := findBestF_some sz (4 * 1024 * 1024) pool i h
  exact ⟨this.1, this.2.1.1, this.2.1.2.2⟩

theorem headAddr_append_cons (A : List Block) (x y : Block) (B C : List Block)
    (hxy : x.addr = y.addr) : headAddr (A ++ x :: B) = headAddr (A ++ y :: C) := by
  cases A <;> simp [headAddr, hxy]

theorem malloc_pres (size : Nat) (pool : List Block)
    (hsz : size < UINT32_MOD - 31) (hinv : LedgerInv pool) :
    LedgerInv (snd_mem_malloc size pool).2 := by
  by_cases h0 : size = 0
  · rw [snd_mem_malloc, if_pos h0]
    exact hinv
  cases hF : findBest (align32 size) pool with
  | none =>
    rw [snd_mem_malloc, if_neg h0]
    simp only [hF]
    exact hinv
  | some i =>
    rw [snd_mem_malloc_success h0 hF]
    show LedgerInv (mallocAt (align32 size) i pool)
    obtain ⟨hilen, hle, hfree⟩ := findBest_some_facts hF
    set sz := align32 size with hszdef
    have hszpos : 0 < sz := align32_pos size h0 (by unfold UINT32_MOD at *; omega)
    set e := blockAt pool i with hedef
    set A := pool.take i with hAdef
    set B := pool.drop (i + 1) with hBdef
    have hsplit : pool = A ++ e :: B := list_split_at pool i hilen
    have hAlen : A.length = i := by
      rw [hAdef, List.length_take]
      omega
    obtain ⟨hne, hhead, hsum, hch, hal⟩ := hinv
    rw [hsplit] at hch hal hsum hhead ⊢
    rw [← hAlen, mallocAt_append]
    have hchA : ChainOK A := (List.chain'_append.mp hch).1
    have hcheB : ChainOK (e :: B) := (List.chain'_append.mp hch).2.1
    have hlinkA : ∀ a ∈ A.getLast?, ∀ y ∈ (e :: B).head?, ExtLink a y :=
      (List.chain'_append.mp hch).2.2
    have hrelE : ∀ y ∈ B.head?, ExtLink e y := (List.chain'_cons'.mp hcheB).1
    have hchB : ChainOK B := (List.chain'_cons'.mp hcheB).2
    have heCap : e.addr + e.size ≤ SPU_CAP := chainOK_addr_size_le hch hsum
    have halE : e.addr % 32 = 0 ∧ e.size % 32 = 0 :=
      hal e (List.mem_append_right A (List.mem_cons_self e B))
    by_cases hperf : e.size = sz
    · rw [if_pos hperf]
      refine ⟨by simp, ?_, ?_, ?_, ?_⟩
      · rw [headAddr_append_cons A { e with inuse := true } e B B rfl]
        exact hhead
      · rw [headAddr_append_cons A { e with inuse := true } e B B rfl]
        rw [sumSizes_append, sumSizes_cons] at hsum ⊢
        simpa using hsum
      · apply List.chain'_append.mpr
        refine ⟨hchA, ?_, ?_⟩
        · apply List.chain'_cons'.mpr
          exact ⟨fun y hy => hrelE y hy, hchB⟩
        · intro a ha y hy
          simp only [List.head?_cons, Option.mem_def, Option.some.injEq] at hy
          subst hy
          exact hlinkA a ha e rfl
      · intro b hb
        rcases List.mem_append.mp hb with hbA | hbE
        · exact hal b (List.mem_append_left _ hbA)
        · rcases List.mem_cons.mp hbE with rfl | hbB
          · exact halE
          · exact hal b (List.mem_append_right A (List.mem_cons_of_mem e hbB))
    · rw [if_neg hperf]
      have hlt : sz < e.size := Nat.lt_of_le_of_ne hle (fun h => hperf h.symm)
      have hmod : (e.addr + sz) % UINT32_MOD = e.addr + sz := by
        apply Nat.mod_eq_of_lt
        unfold UINT32_MOD SPU_CAP at *
        omega
      have hszal : sz % 32 = 0 := align32_mul32 size
      refine ⟨by simp, ?_, ?_, ?_, ?_⟩
      · rw [headAddr_append_cons A { e with size := sz, inuse := true } e
            (⟨(e.addr + sz) % UINT32_MOD, e.size - sz, false⟩ :: B) B rfl]
        exact hhead
      · rw [headAddr_append_cons A { e with size := sz, inuse := true } e
            (⟨(e.addr + sz) % UINT32_MOD, e.size - sz, false⟩ :: B) B rfl]
        simp only [sumSizes_append, sumSizes_cons] at hsum ⊢
        omega
      · apply List.chain'_append.mpr
        refine ⟨hchA, ?_, ?_⟩
        · apply List.chain'_cons.mpr
          constructor
          · exact ⟨by simp [hmod], by simp [hmod]; omega⟩
          · apply List.chain'_cons'.mpr
            refine ⟨?_, hchB⟩
            intro y hy
            obtain ⟨hr1, hr2⟩ := hrelE y hy
            constructor
            · simp only [hmod]
              omega
            · simp only [hmod]
              omega
        · intro a ha y hy
          simp only [List.head?_cons, Option.mem_def, Option.some.injEq] at hy
          subst hy
          exact hlinkA a ha e rfl
      · intro b hb
        rcases List.mem_append.mp hb with hbA | hbE
        · exact hal b (List.mem_append_left _ hbA)
        · rcases List.mem_cons.mp hbE with rfl | hbE2
          · exact ⟨halE.1, hszal⟩
          · rcases List.mem_cons.mp hbE2 with rfl | hbB
            · constructor
              · simp only [hmod]
                omega
              · simp only []
                omega
            · exact hal b (List.mem_append_right A (List.mem_cons_of_mem e hbB))

/-! ### Invariant establishment and preservation at the operation level -/

theorem init_pres (reserve : Nat) (hres : align32 reserve ≤ SPU_CAP) :
    LedgerInv (snd_mem_init reserve) := by
  have hcapw : SPU_CAP < UINT32_MOD := by unfold SPU_CAP UINT32_MOD; omega
  have hr := usub32_of_le SPU_CAP (align32 reserve) hres hcapw
  have hral : align32 reserve % 32 = 0 := align32_mul32 reserve
  show LedgerInv [⟨align32 reserve, usub32 SPU_CAP (align32 reserve), false⟩]
  refine ⟨by simp, ?_, ?_, List.chain'_singleton _, ?_⟩
  · show align32 reserve ≤ SPU_CAP
    exact hres
  · show sumSizes [⟨align32 reserve, usub32 SPU_CAP (align32 reserve), false⟩] + align32 reserve = SPU_CAP
    have hss : sumSizes [⟨align32 reserve, usub32 SPU_CAP (align32 reserve), false⟩] =
        usub32 SPU_CAP (align32 reserve) := by
      simp [sumSizes]
    rw [hss, hr]
    omega
  · intro b hb
    rcases List.mem_singleton.mp hb with rfl
    refine ⟨hral, ?_⟩
    show usub32 SPU_CAP (align32 reserve) % 32 = 0
    rw [hr]
    have hres2 : align32 reserve ≤ 2097152 := hres
    have hcap : SPU_CAP = 2097152 := by norm_num [SPU_CAP]
    rw [hcap]
    omega

theorem fwdCoalesce_head (x : Block) (xs : List Block) :
    ∃ s t, fwdCoalesce x xs = { x with size := s } :: t := by
  cases xs with
  | nil => exact ⟨x.size, [], by simp [fwdCoalesce]⟩
  | cons o rest =>
    rw [fwdCoalesce_cons]
    by_cases ho : o.inuse = false
    · rw [if_pos ho]
      exact ⟨(x.size + o.size) % UINT32_MOD, rest, rfl⟩
    · rw [if_neg ho]
      exact ⟨x.size, o :: rest, by simp⟩

theorem sndFreeGo_headAddr (addr : Nat) (e : Block) (rest : List Block) :
    ∃ z t, (sndFreeGo addr (e :: rest)).1 = z :: t ∧ z.addr = e.addr := by
  by_cases he : e.addr = addr
  · cases rest with
    | nil =>
      rw [sndFreeGo_singleton, if_pos he]
      obtain ⟨s, t, h⟩ := fwdCoalesce_head { e with inuse := false } []
      exact ⟨_, t, h, rfl⟩
    | cons f rest2 =>
      rw [sndFreeGo_cons_cons, if_pos he]
      obtain ⟨s, t, h⟩ := fwdCoalesce_head { e with inuse := false } (f :: rest2)
      exact ⟨_, t, h, rfl⟩
  · obtain ⟨s, t, h⟩ := sndFreeGo_head_ne addr e rest he
    exact ⟨_, t, h, rfl⟩

theorem free_pres (addr : Nat) (pool : List Block) (hinv : LedgerInv pool) :
    LedgerInv (snd_mem_free addr pool).1 := by
  rw [snd_mem_free]
  by_cases h0 : addr = 0
  · rw [if_pos h0]
    exact hinv
  rw [if_neg h0]
  obtain ⟨hne, hhead, hsum, hch, hal⟩ := hinv
  have hsumlt : sumSizes pool < UINT32_MOD := by
    unfold SPU_CAP UINT32_MOD at *
    omega
  have hp := sndFreeGo_pres addr pool hsumlt hch hal
  cases pool with
  | nil => exact absurd rfl hne
  | cons e rest =>
    obtain ⟨z, t, hzt, hza⟩ := sndFreeGo_headAddr addr e rest
    have hhead2 : headAddr ((sndFreeGo addr (e :: rest)).1) = headAddr (e :: rest) := by
      rw [hzt]
      show z.addr = e.addr
      exact hza
    refine ⟨by rw [hzt]; simp, ?_, ?_, hp.1, hp.2.1⟩
    · rw [hhead2]
      exact hhead
    · rw [hhead2, hp.2.2]
      exact hsum

/-! ### The alloc-free round trip -/

theorem block_eta_free (e : Block) (he : e.inuse = false) :
    ({ e with inuse := false } : Block) = e := by
  cases e with
  | mk a s u =>
    simp only [] at he
    subst he
    rfl

theorem fwdCoalesce_no_merge (x : Block) (xs : List Block)
    (h : ∀ y, xs.head? = some y → y.inuse = true) : fwdCoalesce x xs = x :: xs := by
  cases xs with
  | nil => rfl
  | cons o rest =>
    have ho : o.inuse = true := h o rfl
    rw [fwdCoalesce_cons, if_neg (by rw [ho]; simp)]

/-- C8 counterexample: the round trip fails on a reachable state.  The
wrap-allocation `alloc(4294967295)` after `init(32)` yields the
reachable pool [{32,0,in-use},{32,2097120,free}] with two extents at the
same address.  On that pool `alloc(32)` returns the nonzero offset 32,
but the immediate `free(32)` finds the *stale zero-size* block first
(the lookup takes the first address match), marks it free, cannot
coalesce with the in-use block after it, and leaves a three-extent pool
instead of restoring the prior two-extent state. -/
theorem roundtrip_fails_on_wrap_state :
    (snd_mem_malloc 4294967295 (snd_mem_init 32)).2 =
      [⟨32, 0, true⟩, ⟨32, 2097120, false⟩] ∧
    (snd_mem_malloc 32 [⟨32, 0, true⟩, ⟨32, 2097120, false⟩]).1 = 32 ∧
    (snd_mem_free 32 (snd_mem_malloc 32 [⟨32, 0, true⟩, ⟨32, 2097120, false⟩]).2).1 =
      [⟨32, 0, false⟩, ⟨32, 32, true⟩, ⟨64, 2097088, false⟩] ∧
    ([⟨32, 0, false⟩, ⟨32, 32, true⟩, ⟨64, 2097088, false⟩] : List Block) ≠
      [⟨32, 0, true⟩, ⟨32, 2097120, false⟩] := by
  refine ⟨by decide, by decide, by decide, by decide⟩

/-- C8 (amended): for every Ledger state satisfying the Ledger
invariants (Coverage, Conservation, Alignment — `LedgerInv`) together
with no-adjacent-free (`NAF`) — properties that hold for every state
reached from an in-range init by non-wrapping allocs and frees, and
that exclude exactly the duplicate-address pools a wrapping alloc
creates — whenever `alloc(S)` returns a nonzero offset `p`, `free(p)`
performed immediately afterwards restores the Ledger exactly, in both
the perfect-fit case and the split case. -/
theorem snd_mem_roundtrip (S : Nat) (pool : List Block)
    (hinv : LedgerInv pool) (hnaf : NAF pool)
    (hnz : (snd_mem_malloc S pool).1 ≠ 0) :
    (snd_mem_free (snd_mem_malloc S pool).1 (snd_mem_malloc S pool).2).1 = pool := by
  by_cases h0 : S = 0
  · rw [snd_mem_malloc, if_pos h0] at hnz
    exact absurd rfl hnz
  cases hF : findBest (align32 S) pool with
  | none =>
    rw [snd_mem_malloc, if_neg h0] at hnz
    simp only [hF] at hnz
    exact absurd rfl hnz
  | some i =>
    rw [snd_mem_malloc_success h0 hF] at hnz ⊢
    obtain ⟨hilen, hle, hfree⟩ := findBest_some_facts hF
    set sz := align32 S with hszdef
    set e := blockAt pool i with hedef
    set A := pool.take i with hAdef
    set B := pool.drop (i + 1) with hBdef
    have hsplit : pool = A ++ e :: B := list_split_at pool i hilen
    have hAlen : A.length = i := by
      rw [hAdef, List.length_take]
      omega
    have hnz' : e.addr ≠ 0 := hnz
    obtain ⟨hne, hhead, hsum, hch, hal⟩ := hinv
    rw [hsplit] at hch hsum hnaf
    have hAne : ∀ a ∈ A, a.addr ≠ e.addr := by
      intro a ha
      exact Nat.ne_of_lt (chainOK_take_addr_lt hch a ha)
    obtain ⟨hlastA, hheadB⟩ := naf_decomp hnaf hfree
    have hesize : e.size < UINT32_MOD := by
      have h1 : e.size ≤ sumSizes (A ++ e :: B) :=
        size_le_sumSizes (List.mem_append_right A (List.mem_cons_self e B))
      rw [hsplit] at hhead
      have h2 : SPU_CAP < UINT32_MOD := by unfold SPU_CAP UINT32_MOD; omega
      omega
    show (snd_mem_free e.addr (mallocAt sz i pool)).1 = pool
    rw [hsplit, ← hAlen, mallocAt_append, snd_mem_free, if_neg hnz']
    by_cases hperf : e.size = sz
    · rw [if_pos hperf]
      rw [sndFreeGo_append e.addr A { e with inuse := true } B hAne hlastA rfl]
      show A ++ fwdCoalesce { e with inuse := false } B = A ++ e :: B
      rw [fwdCoalesce_no_merge _ B (fun y hy => hheadB y hy)]
      rw [block_eta_free e hfree]
    · rw [if_neg hperf]
      rw [sndFreeGo_append e.addr A { e with size := sz, inuse := true }
        (⟨(e.addr + sz) % UINT32_MOD, e.size - sz, false⟩ :: B) hAne hlastA rfl]
      show A ++ fwdCoalesce ⟨e.addr, sz, false⟩
        (⟨(e.addr + sz) % UINT32_MOD, e.size - sz, false⟩ :: B) = A ++ e :: B
      rw [fwdCoalesce_cons, if_pos rfl]
      show A ++ (⟨e.addr, (sz + (e.size - sz)) % UINT32_MOD, false⟩ : Block) :: B = A ++ e :: B
      have hsz2 : (sz + (e.size - sz)) % UINT32_MOD = e.size := by
        have : sz + (e.size - sz) = e.size := by omega
        rw [this]
        exact Nat.mod_eq_of_lt hesize
      rw [hsz2]
      have : (⟨e.addr, e.size, false⟩ : Block) = e := by
        rw [← block_eta_free e hfree]
      rw [this]

/-! ### The claims -/

/-- C1: the claim states that `available()` returns the size of the
largest *free* extent and that in-use extents never contribute.  The
loop of `snd_mem_available` tests only `e->size > largest`, never
`e->inuse`: after `init(0)` and `alloc(0x180000)` the pool is one in-use
extent of size 1572864 followed by one free extent of size 524288, and
the code returns 1572864 — the in-use extent's size — although the
largest free extent has size 524288.  The claim matches the evident
intent of a function named "available"; the missing in-use test is a
slip in the code. -/
theorem available_counts_inuse_extent :
    (snd_mem_malloc 1572864 (snd_mem_init 0)).2 =
      [⟨0, 1572864, true⟩, ⟨1572864, 524288, false⟩] ∧
    snd_mem_available (some ((snd_mem_malloc 1572864 (snd_mem_init 0)).2)) = 1572864 ∧
    largestFreeExtent ((snd_mem_malloc 1572864 (snd_mem_init 0)).2) = 524288 ∧
    snd_mem_available none = 0 := by
  refine ⟨by decide, by decide, by decide, rfl⟩

/-- C2: Scenario A.  After `init(0)` over the 2097152-byte region,
`available()` returns 2097152; `alloc(1000)` rounds the request to 1024,
succeeds, returns offset 0, and leaves one free extent of size
2097152 − 1024 = 2096128 at offset 1024.  The returned offset 0 is the
very value the failure sentinel uses: an out-of-space call such as
`alloc(4194304)` returns the same 0. -/
theorem scenarioA_alloc_returns_sentinel :
    snd_mem_available (some (snd_mem_init 0)) = 2097152 ∧
    align32 1000 = 1024 ∧
    snd_mem_malloc 1000 (snd_mem_init 0) =
      (0, [⟨0, 1024, true⟩, ⟨1024, 2096128, false⟩]) ∧
    (snd_mem_malloc 4194304 (snd_mem_init 0)).1 = 0 := by
  refine ⟨by decide, by decide, by decide, by decide⟩

/-- C3 counterexample: after `init(0)`, `alloc(1000)` returns offset 0,
so offset 1024 was never returned by alloc; yet `free(1024)` matches the
free split-remainder extent at address 1024 and completes without any
InvalidFree report (the claim demands that a diagnostic is reported).
The Ledger is still left unchanged. -/
theorem free_unreturned_offset_no_diagnostic :
    (snd_mem_malloc 1000 (snd_mem_init 0)).1 = 0 ∧
    snd_mem_free 1024 ((snd_mem_malloc 1000 (snd_mem_init 0)).2) =
      ((snd_mem_malloc 1000 (snd_mem_init 0)).2, false) := by
  refine ⟨by decide, by decide⟩

/-- C3 (amended): for every pool state and every nonzero offset that is
not the address of any extent of the Ledger, `free(offset)` is a no-op —
the Ledger is unchanged — and an InvalidFree diagnostic is reported. -/
theorem free_unknown_addr_noop_reports (pool : List Block) (addr : Nat)
    (h0 : addr ≠ 0) (hno : ∀ b ∈ pool, b.addr ≠ addr) :
    snd_mem_free addr pool = (pool, true) := by
  rw [snd_mem_free, if_neg h0]
  clear h0
  induction pool with
  | nil => rfl
  | cons e rest ih =>
    have he : e.addr ≠ addr := hno e (List.mem_cons_self e rest)
    cases rest with
    | nil => rw [sndFreeGo_singleton, if_neg he]
    | cons f rest2 =>
      have hf : f.addr ≠ addr :=
        hno f (List.mem_cons_of_mem e (List.mem_cons_self f rest2))
      rw [sndFreeGo_cons_cons, if_neg he, if_neg hf]
      rw [ih (fun b hb => hno b (List.mem_cons_of_mem e hb))]

/-- C3 witness: a concrete invalid free on a pool with one in-use
extent. -/
theorem free_unknown_addr_noop_reports_witness :
    snd_mem_free 100 [⟨32, 64, true⟩] = ([⟨32, 64, true⟩], true) :=
  free_unknown_addr_noop_reports [⟨32, 64, true⟩] 100 (by decide) (by decide)

/-- C4 counterexample: with free extents of sizes 100, 50 and 40 (at
addresses 32, 132 and 182), `alloc(40)` returns 32 — the address of the
100-sized extent — not 182, the address of the 40-sized extent the claim
designates as the perfect fit. -/
theorem bestfit_40_returns_100_extent :
    (snd_mem_malloc 40 [⟨32, 100, false⟩, ⟨132, 50, false⟩, ⟨182, 40, false⟩]).1 = 32 ∧
    (32 : Nat) ≠ 182 := by
  refine ⟨by decide, by decide⟩

/-- C4 (amended): `alloc(40)` first rounds the request to 64, so the 40-
and 50-sized extents are not candidates; the allocator selects and
returns the extent of size 100 — the only candidate — and never the
40-sized one, for any addresses of the three extents. -/
theorem bestfit_40_rounded_selects_100 :
    align32 40 = 64 ∧
    ∀ a b c : Nat,
      (snd_mem_malloc 40 [⟨a, 100, false⟩, ⟨b, 50, false⟩, ⟨c, 40, false⟩]).1 = a :=
  ⟨by decide, fun a b c => rfl⟩

/-- C7: immediately after any `free(offset)` call on a pool in which no
two consecutive extents were both free, the resulting pool again has no
two consecutive free extents: the backward and forward coalescing steps
remove any free-free adjacency the call could create. -/
theorem free_preserves_no_adjacent_free (addr : Nat) (pool : List Block)
    (hnaf : NAF pool) : NAF (snd_mem_free addr pool).1 := by
  rw [snd_mem_free]
  by_cases h0 : addr = 0
  · rw [if_pos h0]
    exact hnaf
  · rw [if_neg h0]
    exact sndFreeGo_naf addr pool hnaf

/-- C7 witness: freeing the in-use extent at 32, between an in-use
neighbor and a free neighbor, coalesces forward and leaves no adjacent
free pair. -/
theorem free_preserves_no_adjacent_free_witness :
    NAF (snd_mem_free 32 [⟨0, 32, true⟩, ⟨32, 32, true⟩, ⟨64, 32, false⟩]).1 :=
  free_preserves_no_adjacent_free 32 [⟨0, 32, true⟩, ⟨32, 32, true⟩, ⟨64, 32, false⟩]
    (by decide)

/-- C8 witness: on the pool produced by `init(32)`, `alloc(1000)`
returns offset 32; freeing it restores the initial single-extent
pool. -/
theorem snd_mem_roundtrip_witness :
    (snd_mem_free (snd_mem_malloc 1000 (snd_mem_init 32)).1
      (snd_mem_malloc 1000 (snd_mem_init 32)).2).1 = snd_mem_init 32 :=
  snd_mem_roundtrip 1000 (snd_mem_init 32) (by decide) (by decide) (by decide)

/-- C9: `init(reserve)` performs no range validation: whenever the
32-byte round-up of the reserve exceeds the capacity 2097152, init still
succeeds and builds a single free extent whose size is the 32-bit
wraparound of `2097152 - reserve` — an extent larger than the whole
managed region — and the Conservation invariant is broken from the
start. -/
theorem init_no_range_validation (reserve : Nat)
    (hbig : SPU_CAP < align32 reserve) :
    snd_mem_init reserve =
      [⟨align32 reserve, SPU_CAP + UINT32_MOD - align32 reserve, false⟩] ∧
    SPU_CAP < SPU_CAP + UINT32_MOD - align32 reserve ∧
    sumSizes (snd_mem_init reserve) ≠ SPU_CAP - align32 reserve := by
  have hlt : align32 reserve < UINT32_MOD := align32_lt_mod reserve
  have hcap : SPU_CAP = 2097152 := by norm_num [SPU_CAP]
  have hW : UINT32_MOD = 4294967296 := rfl
  have husub : usub32 SPU_CAP (align32 reserve) =
      SPU_CAP + UINT32_MOD - align32 reserve := by
    unfold usub32
    rw [Nat.mod_eq_of_lt hlt, Nat.mod_eq_of_lt (by omega)]
    omega
  refine ⟨?_, by omega, ?_⟩
  · show [(⟨align32 reserve, usub32 SPU_CAP (align32 reserve), false⟩ : Block)] = _
    rw [husub]
  · show sumSizes [⟨align32 reserve, usub32 SPU_CAP (align32 reserve), false⟩] ≠ _
    have hss : sumSizes [⟨align32 reserve, usub32 SPU_CAP (align32 reserve), false⟩] =
        usub32 SPU_CAP (align32 reserve) := by
      simp [sumSizes]
    rw [hss, husub]
    omega

/-- C9 witness: `init(4194304)` (4 MiB, twice the capacity) succeeds and
creates the bogus wrapped extent. -/
theorem init_no_range_validation_witness :
    snd_mem_init 4194304 =
      [⟨align32 4194304, SPU_CAP + UINT32_MOD - align32 4194304, false⟩] ∧
    SPU_CAP < SPU_CAP + UINT32_MOD - align32 4194304 ∧
    sumSizes (snd_mem_init 4194304) ≠ SPU_CAP - align32 4194304 :=
  init_no_range_validation 4194304 (by decide)

theorem blockAt_mem (pool : List Block) (j : Nat) (hj : j < pool.length) :
    blockAt pool j ∈ pool := by
  rw [blockAt, List.getD_eq_getElem _ _ hj]
  exact List.getElem_mem _

/-- C5 counterexample: on the initialized pool produced by `init(4194304)`
the single extent is free with size 4292870144, far above the rounded
request 32, yet the scan selects nothing — the extent's size is not below
the scan's initial `best_size` bound of 4*1024*1024 — and alloc returns 0
without touching the pool, so alloc does not consider every free extent
whose size is at least the rounded request. -/
theorem bestfit_misses_large_extent :
    snd_mem_init 4194304 = [⟨4194304, 4292870144, false⟩] ∧
    align32 32 ≤ (4292870144 : Nat) ∧
    findBest (align32 32) (snd_mem_init 4194304) = none ∧
    snd_mem_malloc 32 (snd_mem_init 4194304) = (0, snd_mem_init 4194304) := by
  refine ⟨by decide, by decide, by decide, by decide⟩

/-- C5 (amended): provided every extent of the pool has size below the
scan's initial bound 4*1024*1024 — automatic whenever Conservation holds,
since then no extent exceeds the 2 MiB capacity — the scan is exactly
best fit: when it reports no candidate, no free extent is at least the
rounded request; when it selects index `i`, that extent is a free
candidate, it has minimal size among the free extents at least as large
as the rounded request, ties go to the first (lowest-address) one in the
scan order, and the offset alloc returns is that extent's address. -/
theorem bestfit_characterization (S : Nat) (pool : List Block)
    (hbnd : ∀ b ∈ pool, b.size < 4 * 1024 * 1024) :
    (findBest (align32 S) pool = none →
      ∀ b ∈ pool, b.inuse = false → b.size < align32 S) ∧
    (∀ i, findBest (align32 S) pool = some i →
      i < pool.length ∧
      (blockAt pool i).inuse = false ∧ align32 S ≤ (blockAt pool i).size ∧
      (∀ j, j < pool.length → (blockAt pool j).inuse = false →
        align32 S ≤ (blockAt pool j).size →
        ((blockAt pool i).size < (blockAt pool j).size ∨
          ((blockAt pool i).size = (blockAt pool j).size ∧ i ≤ j))) ∧
      (S ≠ 0 → (snd_mem_malloc S pool).1 = (blockAt pool i).addr)) := by
  constructor
  · intro hnone b hb hfree
    rw [findBest_eq] at hnone
    have hn := (findBestF_none (align32 S) (4 * 1024 * 1024) pool).mp hnone b hb
    have hb4 := hbnd b hb
    by_contra hge
    push_neg at hge
    exact hn ⟨hge, hb4, hfree⟩
  · intro i hFi
    have hfacts := findBest_some_facts hFi
    have hFi2 := hFi
    rw [findBest_eq] at hFi2
    have hsome := findBestF_some (align32 S) (4 * 1024 * 1024) pool i hFi2
    refine ⟨hfacts.1, hfacts.2.2, hfacts.2.1, ?_, ?_⟩
    · intro j hj hjfree hjle
      have hj4 : (blockAt pool j).size < 4 * 1024 * 1024 :=
        hbnd _ (blockAt_mem pool j hj)
      exact hsome.2.2 j hj ⟨hjle, hj4, hjfree⟩
    · intro hS0
      rw [snd_mem_malloc_success hS0 hFi]

/-- C5 witness: on a pool with free extents of sizes 100 and 64 the scan
selects the 64-sized one (index 1) and alloc returns its address 132. -/
theorem bestfit_characterization_witness :
    (snd_mem_malloc 32 [⟨32, 100, false⟩, ⟨132, 64, false⟩]).1 = 132 := by
  have h := (bestfit_characterization 32 [⟨32, 100, false⟩, ⟨132, 64, false⟩]
    (by decide)).2 1 (by decide)
  have h2 := h.2.2.2.2 (by decide)
  rw [h2]
  decide

/-- C6 counterexample: `init(4194304)` succeeds, and the resulting
state — reachable from a successful init — violates Conservation (the
extent sizes sum to 4292870144, not 2097152 minus the rounded reserved
base) and hence the Ledger invariant. -/
theorem init_overlarge_breaks_conservation :
    snd_mem_init 4194304 = [⟨4194304, 4292870144, false⟩] ∧
    sumSizes (snd_mem_init 4194304) ≠ SPU_CAP - align32 4194304 ∧
    ¬ LedgerInv (snd_mem_init 4194304) := by
  refine ⟨by decide, by decide, by decide⟩

/-- C6 (amended): provided the rounded reserve base does not exceed the
capacity 2097152, `init` establishes the Ledger invariants (Coverage,
Conservation and Alignment, with the pool nonempty); `free` preserves
them for every argument; and `alloc` preserves them for every requested
size below 2^32 − 31 (a request whose 32-byte round-up does not wrap to
0).  `available` does not modify the pool at all (it is a pure query in
this model). -/
theorem ledger_invariants_preserved :
    (∀ reserve, align32 reserve ≤ SPU_CAP → LedgerInv (snd_mem_init reserve)) ∧
    (∀ size pool, size < UINT32_MOD - 31 → LedgerInv pool →
      LedgerInv (snd_mem_malloc size pool).2) ∧
    (∀ addr pool, LedgerInv pool → LedgerInv (snd_mem_free addr pool).1) :=
  ⟨init_pres, malloc_pres, free_pres⟩

/-- C6 witness: the invariants hold after `init(32)`, after a subsequent
`alloc(1000)`, and after freeing offset 32 again. -/
theorem ledger_invariants_preserved_witness :
    LedgerInv (snd_mem_init 32) ∧
    LedgerInv (snd_mem_malloc 1000 (snd_mem_init 32)).2 ∧
    LedgerInv (snd_mem_free 32 ((snd_mem_malloc 1000 (snd_mem_init 32)).2)).1 :=
  ⟨ledger_invariants_preserved.1 32 (by decide),
   ledger_invariants_preserved.2.1 1000 (snd_mem_init 32) (by decide) (by decide),
   ledger_invariants_preserved.2.2 32 ((snd_mem_malloc 1000 (snd_mem_init 32)).2)
     (by decide)⟩

/-- C10 counterexample: the pool produced by `init(4194304)` is an
initialized pool with one free extent, and 4294967295 lies in the
wrapping range, yet `alloc(4294967295)` *does* fail — it returns 0 and
leaves the pool unchanged — because the huge free extent is not below
the scan's initial 4 MiB bound, so the claim's "does not fail with
OutOfSpace" is false as stated. -/
theorem alloc_wrap_can_fail :
    align32 4294967295 = 0 ∧
    (snd_mem_init 4194304).length = 1 ∧
    (blockAt (snd_mem_init 4194304) 0).inuse = false ∧
    snd_mem_malloc 4294967295 (snd_mem_init 4194304) = (0, snd_mem_init 4194304) := by
  refine ⟨by decide, by decide, by decide, by decide⟩

/-- C10 (amended): for every requested size in [2^32−31, 2^32−1] the
32-byte round-up wraps to 0; on a pool whose free extents all have
positive size below 4*1024*1024 (and 32-bit addresses) the call then does
not fail: it selects the smallest free extent (first on ties), shrinks it
to size 0 while marking it in-use, inserts the remainder as a new free
extent at the *same* address right after it, and returns that address —
an allocation of zero usable bytes that destroys the ascending-address
ordering of the Coverage invariant. -/
theorem alloc_wrap_zero_size (size : Nat) (pool : List Block)
    (hlo : UINT32_MOD - 31 ≤ size) (hhi : size < UINT32_MOD)
    (hex : ∃ b ∈ pool, b.inuse = false)
    (hbnd : ∀ b ∈ pool, b.inuse = false → 0 < b.size ∧ b.size < 4 * 1024 * 1024)
    (haddr : ∀ b ∈ pool, b.addr < UINT32_MOD) :
    align32 size = 0 ∧
    ∃ i, findBest 0 pool = some i ∧
      snd_mem_malloc size pool = ((blockAt pool i).addr,
        pool.take i ++ { blockAt pool i with size := 0, inuse := true } ::
          ⟨(blockAt pool i).addr, (blockAt pool i).size, false⟩ :: pool.drop (i + 1)) ∧
      (blockAt pool i).inuse = false ∧
      (∀ b ∈ pool, b.inuse = false → (blockAt pool i).size ≤ b.size) ∧
      ¬ ChainOK (pool.take i ++ { blockAt pool i with size := 0, inuse := true } ::
          ⟨(blockAt pool i).addr, (blockAt pool i).size, false⟩ :: pool.drop (i + 1)) := by
  have h0 : size ≠ 0 := by
    unfold UINT32_MOD at hlo
    omega
  have hwrap : align32 size = 0 := align32_wrap size hlo hhi
  refine ⟨hwrap, ?_⟩
  obtain ⟨b0, hb0mem, hb0free⟩ := hex
  cases hFi : findBest (align32 size) pool with
  | none =>
    exfalso
    rw [findBest_eq, hwrap] at hFi
    have := (findBestF_none 0 (4 * 1024 * 1024) pool).mp hFi b0 hb0mem
    exact this ⟨Nat.zero_le _, (hbnd b0 hb0mem hb0free).2, hb0free⟩
  | some i =>
    refine ⟨i, by rw [← hwrap]; exact hFi, ?_⟩
    obtain ⟨hilen, _, hifree⟩ := findBest_some_facts hFi
    set e := blockAt pool i with hedef
    have hemem : e ∈ pool := blockAt_mem pool i hilen
    have hepos : 0 < e.size := (hbnd e hemem hifree).1
    have headdr : e.addr < UINT32_MOD := haddr e hemem
    have hsplit : pool = pool.take i ++ e :: pool.drop (i + 1) := list_split_at pool i hilen
    have hAlen : (pool.take i).length = i := by
      rw [List.length_take]
      omega
    have hmall : mallocAt (align32 size) i pool =
        pool.take i ++ { e with size := 0, inuse := true } ::
          ⟨e.addr, e.size, false⟩ :: pool.drop (i + 1) := by
      have hstep : mallocAt 0 i pool =
          mallocAt 0 (pool.take i).length (pool.take i ++ e :: pool.drop (i + 1)) := by
        rw [hAlen, ← hsplit]
      rw [hwrap, hstep, mallocAt_append, if_neg (by omega)]
      have h1 : (e.addr + 0) % UINT32_MOD = e.addr := by
        rw [Nat.add_zero]
        exact Nat.mod_eq_of_lt headdr
      rw [h1]
      have h2 : e.size - 0 = e.size := rfl
      rw [h2]
    refine ⟨?_, hifree, ?_, ?_⟩
    · rw [snd_mem_malloc_success h0 hFi, hmall]
    · intro b hb hbfree
      have hFi2 := hFi
      rw [findBest_eq, hwrap] at hFi2
      have hsome := findBestF_some 0 (4 * 1024 * 1024) pool i hFi2
      obtain ⟨j, hjlen, hjeq⟩ := List.mem_iff_getElem.mp hb
      have hjb : blockAt pool j = b := by
        rw [blockAt, List.getD_eq_getElem _ _ hjlen, hjeq]
      have := hsome.2.2 j hjlen
        (by rw [hjb]; exact ⟨Nat.zero_le _, (hbnd b hb hbfree).2, hbfree⟩)
      rw [hjb] at this
      rcases this with h1 | h1
      · exact Nat.le_of_lt h1
      · exact Nat.le_of_eq h1.1
    · intro hch
      have hs := chainOK_sorted hch
      rw [List.pairwise_append] at hs
      have h2 := hs.2.1
      rw [List.pairwise_cons] at h2
      have h3 := h2.1 ⟨e.addr, e.size, false⟩ (List.mem_cons_self _ _)
      exact absurd h3 (Nat.lt_irrefl e.addr)

/-- C10 witness: `alloc(4294967295)` on a pool with one free 64-byte
extent at address 32 "succeeds": it returns 32 and leaves a zero-sized
in-use extent and the old extent at the same address. -/
theorem alloc_wrap_zero_size_witness :
    align32 4294967295 = 0 ∧
    snd_mem_malloc 4294967295 [⟨32, 64, false⟩] =
      (32, [⟨32, 0, true⟩, ⟨32, 64, false⟩]) := by
  have h := alloc_wrap_zero_size 4294967295 [⟨32, 64, false⟩]
    (by decide) (by decide) (by decide) (by decide) (by decide)
  obtain ⟨i, hFi, hmal, _⟩ := h.2
  have hF0 : findBest 0 [(⟨32, 64, false⟩ : Block)] = some 0 := by decide
  rw [hF0] at hFi
  have hi : (0 : Nat) = i := Option.some.inj hFi
  subst hi
  refine ⟨h.1, ?_⟩
  rw [hmal]
  decide
